import Mathlib

/-!
Shallow embedding of the skillgap-rag-coach backend core
(`backend/services/baseline.py`, `backend/services/skill_dict.py`,
`backend/services/llm_service.py`, `backend/services/models.py`).

Python strings are modelled as Lean `String` (a wrapper around `List Char`,
indexing by code points exactly as Python does).  Character classes model the
ASCII fragment of Python's `\w`, `\s`, `str.lower` and `str.strip`; all
dictionary entries and the regexes in the source only distinguish characters
inside that fragment.  Python's float `round` is modelled as exact rational
rounding half-to-even, which is Python's rounding rule (`round` ties to even);
the quantities rounded here are exact in double precision for all realistic
set sizes.
-/

/-- ASCII fragment of Python's regex class `\w` (letters, digits, underscore). -/
def isWordChar (c : Char) : Bool :=
  decide ((48 ≤ c.toNat ∧ c.toNat ≤ 57) ∨ (65 ≤ c.toNat ∧ c.toNat ≤ 90) ∨
    (97 ≤ c.toNat ∧ c.toNat ≤ 122) ∨ c = '_')

/-- ASCII fragment of Python's regex class `\s` / `str.strip` whitespace:
space, tab, newline, carriage return, vertical tab, form feed. -/
def isPyWs (c : Char) : Bool :=
  decide (c = ' ' ∨ c = '\t' ∨ c = '\n' ∨ c = '\r' ∨ c.toNat = 11 ∨ c.toNat = 12)

/-- ASCII uppercase letter test (used to state the "all lowercase" claims). -/
def isUpperAscii (c : Char) : Bool :=
  decide (65 ≤ c.toNat ∧ c.toNat ≤ 90)

/-- Drop trailing Python-whitespace characters. -/
def dropTrailingWs (l : List Char) : List Char :=
  (l.reverse.dropWhile isPyWs).reverse

/-- Model of Python `str.strip()` on the underlying character list. -/
def stripWsL (l : List Char) : List Char :=
  dropTrailingWs (l.dropWhile isPyWs)

/-- Model of Python `str.lower()` (ASCII): map `Char.toLower` over the text. -/
def pyLower (s : String) : String :=
  ⟨s.data.map Char.toLower⟩

/-- Lowercase every string in a list, as `[s.lower() for s in l]`. -/
def lowerList (l : List String) : List String :=
  l.map pyLower

/-- The character substitution performed by `re.sub(r"[^\w\s]", " ", lower)`:
word characters and whitespace survive, everything else becomes a space. -/
def normChar (c : Char) : Char :=
  if isWordChar c || isPyWs c then c else ' '

/-- Accumulator-based model of Python `str.split()` (split on whitespace runs,
no empty pieces).  `acc` holds the current word reversed. -/
def splitWsAux : List Char → List Char → List (List Char)
  | acc, [] => if acc.isEmpty then [] else [acc.reverse]
  | acc, c :: rest =>
    if isPyWs c then
      if acc.isEmpty then splitWsAux [] rest else acc.reverse :: splitWsAux [] rest
    else
      splitWsAux (c :: acc) rest

/-- Model of Python `str.split()` with no separator argument. -/
def pySplit (l : List Char) : List (List Char) :=
  splitWsAux [] l

/-- Model of `" ".join(words)`. -/
def joinSp : List (List Char) → List Char
  | [] => []
  | [w] => w
  | w :: x :: rest => w ++ ' ' :: joinSp (x :: rest)

/-- Embedding of `baseline.normalize_text`: lowercase, strip, replace
punctuation with spaces, collapse whitespace runs to single spaces. -/
def normalize_text (text : String) : String :=
  if stripWsL text.data = [] then ""
  else ⟨joinSp (pySplit ((stripWsL (text.data.map Char.toLower)).map normChar))⟩

/-- Adjacent-word bigrams `f"{words[i]} {words[i+1]}"` of `baseline.tokenize`. -/
def bigramsOf : List String → List String
  | [] => []
  | [_] => []
  | a :: b :: rest => (a ++ " " ++ b) :: bigramsOf (b :: rest)

/-- Embedding of `baseline.tokenize`: single words plus adjacent bigrams of the
normalized text.  The Python function returns a set; membership is all that is
ever used of it, so a list with possible duplicates is a faithful model. -/
def tokenize (text : String) : List String :=
  let words := (pySplit (normalize_text text).data).map (fun w => String.mk w)
  words ++ bigramsOf words

/-- Embedding of `skill_dict.SKILL_KEYWORDS` (a frozenset; order irrelevant). -/
def SKILL_KEYWORDS : List String := [
  "python", "javascript", "typescript", "java", "csharp", "c#", "cpp", "c++", "go", "golang",
  "rust", "ruby", "php", "swift", "kotlin", "scala", "r", "sql", "html", "css",
  "react", "vue", "angular", "nextjs", "next.js", "node", "nodejs", "express", "django",
  "flask", "fastapi", "spring", "rails", "laravel", "dotnet", ".net", "asp.net",
  "machine learning", "ml", "deep learning", "tensorflow", "pytorch", "keras", "pandas",
  "numpy", "scikit", "scikit-learn", "data analysis", "data science", "nlp",
  "natural language processing", "computer vision", "statistics",
  "aws", "azure", "gcp", "google cloud", "docker", "kubernetes", "k8s", "ci/cd",
  "jenkins", "github actions", "terraform", "ansible", "linux", "bash", "shell",
  "postgresql", "postgres", "mysql", "mongodb", "redis", "elasticsearch", "sqlite",
  "git", "rest", "api", "graphql", "microservices", "agile", "scrum", "jira",
  "testing", "unit tests", "tdd", "oop", "design patterns", "clean code",
  "leadership", "communication", "project management", "technical writing",
  "problem solving", "collaboration", "mentoring", "cross-functional"]

/-- Embedding of `skill_dict.SKILL_WORDS`. -/
def SKILL_WORDS : List String := [
  "python", "javascript", "typescript", "java", "golang", "rust", "ruby", "php",
  "swift", "kotlin", "scala", "react", "vue", "angular", "django", "flask", "fastapi",
  "node", "express", "spring", "rails", "docker", "kubernetes", "terraform", "aws",
  "azure", "gcp", "postgresql", "mysql", "mongodb", "redis", "git", "linux", "bash",
  "tensorflow", "pytorch", "pandas", "numpy", "sql", "html", "css", "rest", "api",
  "agile", "scrum", "jira", "testing", "oop", "nlp", "ml"]

/-- Decidable test that `p` is a leading segment of `l` (Python `startswith`). -/
def isPrefSeg : List Char → List Char → Bool
  | [], _ => true
  | _ :: _, [] => false
  | a :: as, b :: bs => a == b && isPrefSeg as bs

/-- Python substring containment `needle in hay`. -/
def containsSubL (needle : List Char) : List Char → Bool
  | [] => needle.isEmpty
  | c :: rest => isPrefSeg needle (c :: rest) || containsSubL needle rest

/-- Python `" " in kw`: the keyword contains a space character. -/
def hasSpace (s : String) : Bool :=
  s.data.contains ' '

/-- Code-point lexicographic comparison on character lists: Python's `<` on
`str`. -/
def lexLt : List Char → List Char → Bool
  | [], [] => false
  | [], _ :: _ => true
  | _ :: _, [] => false
  | a :: as, b :: bs =>
    if a < b then true
    else if b < a then false
    else lexLt as bs

/-- Executable model of Python string comparison `a < b`. -/
def strLtB (a b : String) : Bool :=
  lexLt a.data b.data

/-- Insert `x` into an already strictly sorted list, skipping it when present.
Folding this over a list models Python's `sorted(set(...))`. -/
def insortDedup (x : String) : List String → List String
  | [] => [x]
  | y :: ys =>
    if strLtB x y then x :: y :: ys
    else if x = y then y :: ys
    else y :: insortDedup x ys

/-- Model of Python `sorted(set(l))`: the strictly increasing enumeration of
the distinct elements of `l` (string order = code-point lexicographic, exactly
Python's `<` on `str`). -/
def sortedDedup (l : List String) : List String :=
  l.foldr insortDedup []

/-- Embedding of `baseline.extract_skills_from_text`: multi-word dictionary
entries matched by substring containment in the normalized text, single tokens
matched against both dictionaries; the union, sorted. -/
def extract_skills_from_text (text : String) : List String :=
  if stripWsL text.data = [] then []
  else
    let norm := normalize_text text
    let fromPhrases := SKILL_KEYWORDS.filter
      (fun kw => hasSpace kw && containsSubL kw.data norm.data)
    let fromTokens := (tokenize text).filter
      (fun w => decide (w ∈ SKILL_WORDS) || decide (w ∈ SKILL_KEYWORDS))
    sortedDedup (fromPhrases ++ fromTokens)

/-- Python `round` on the exact rational `num / den` (`den > 0`): round half to
even, the semantics of `round` on the values produced in `compute_match_score`. -/
def pyRound (num den : Nat) : Nat :=
  let q := num / den
  let r := num % den
  if 2 * r < den then q
  else if den < 2 * r then q + 1
  else if q % 2 = 0 then q else q + 1

/-- Embedding of `baseline.compute_match_score`: 100 on an empty job list,
otherwise the rounded percentage of distinct lowered job skills that also
occur among the lowered resume skills, clamped to 100. -/
def compute_match_score (resume_skills job_skills : List String) : Nat :=
  if job_skills.isEmpty then 100
  else
    let resume_set := sortedDedup (lowerList resume_skills)
    let job_set := sortedDedup (lowerList job_skills)
    let overlap := (job_set.filter (fun s => decide (s ∈ resume_set))).length
    min 100 (pyRound (100 * overlap) job_set.length)

/-- Embedding of `models.SkillWithEvidence`. -/
structure SkillWithEvidence where
  skill : String
  evidence : String
deriving DecidableEq

/-- Embedding of `models.AnalysisResult`. -/
structure AnalysisResult where
  match_score : Nat
  overlapping_skills : List SkillWithEvidence
  missing_skills : List String
  suggested_next_steps : List String
  mode : String
deriving DecidableEq

/-- Maximum evidence snippet length, `baseline.EVIDENCE_MAX_LEN`. -/
def EVIDENCE_MAX_LEN : Nat := 120

/-- The literal `"..."` appended by the evidence locator at truncation points. -/
def dots : List Char := ['.', '.', '.']

/-- Does the character end a sentence for `re.split(r"(?<=[.!?])\s+", raw)`. -/
def isSentEnd (c : Char) : Bool :=
  c == '.' || c == '!' || c == '?'

/-- Fuel-based scanner for `re.split(r"(?<=[.!?])\s+", raw)`: a split happens
at every whitespace run whose preceding character is `.`, `!` or `?`, and the
whole run is consumed (greedy `\s+`).  `acc` is the current piece reversed, so
its head is the character just before the scan position. -/
def splitSentAux : Nat → List Char → List Char → List (List Char)
  | 0, acc, _ => [acc.reverse]
  | _ + 1, acc, [] => [acc.reverse]
  | fuel + 1, acc, c :: rest =>
    if isPyWs c && isSentEnd (acc.headD ' ') then
      acc.reverse :: splitSentAux fuel [] (List.dropWhile isPyWs (c :: rest))
    else
      splitSentAux fuel (c :: acc) rest

/-- Embedding of `baseline._sentences`: strip, split after `.!?` + whitespace,
strip each part and drop empty parts. -/
def pySentences (text : String) : List String :=
  if stripWsL text.data = [] then []
  else
    let raw := stripWsL text.data
    (((splitSentAux (raw.length + 1) [] raw).map stripWsL).filter
      (fun p => !p.isEmpty)).map (fun p => String.mk p)

/-- First element of Python `s.rsplit(maxsplit=1)`: everything before the last
whitespace run (with the run removed), the lone word when whitespace occurs
only before it, and the trailing-whitespace-stripped string when it holds no
whitespace at all.  (On an all-whitespace string Python's `[0]` would raise;
the model returns `[]`, a value the caller never produces.) -/
def rsplitFirst (s : List Char) : List Char :=
  let t := dropTrailingWs s
  let rev := t.reverse
  let word := rev.takeWhile (fun c => !isPyWs c)
  let rest := (rev.dropWhile (fun c => !isPyWs c)).dropWhile isPyWs
  if rest.isEmpty then word.reverse else rest.reverse

/-- Index of the first occurrence of `needle` in the haystack (`str.find`),
`none` when absent (Python's `-1`). -/
def findSubIdx (needle : List Char) : List Char → Option Nat
  | [] => if needle.isEmpty then some 0 else none
  | c :: rest =>
    if isPrefSeg needle (c :: rest) then some 0
    else (findSubIdx needle rest).map (· + 1)

/-- Embedding of `baseline._find_evidence_for_skill`: prefer the first sentence
containing the lowered skill (word-boundary truncation past the cap), otherwise
a character window around the first raw occurrence, with ellipses and a final
cap; empty string when the skill does not occur. -/
def find_evidence_for_skill (resume_text skill : String) : String :=
  if resume_text.data.isEmpty || skill.data.isEmpty then ""
  else
    let lowerSkill := skill.data.map Char.toLower
    match (pySentences resume_text).find?
        (fun sent => containsSubL lowerSkill (sent.data.map Char.toLower)) with
    | some sent =>
      let snippet := stripWsL sent.data
      if EVIDENCE_MAX_LEN < snippet.length then
        ⟨rsplitFirst (snippet.take (EVIDENCE_MAX_LEN - 3)) ++ dots⟩
      else ⟨snippet⟩
    | none =>
      match findSubIdx lowerSkill (resume_text.data.map Char.toLower) with
      | none => ""
      | some idx =>
        let start := idx - 40
        let stop := min resume_text.data.length (idx + skill.data.length + 50)
        let snip1 := stripWsL ((resume_text.data.take stop).drop start)
        let snip2 := if 0 < start then dots ++ snip1 else snip1
        let snip3 := if stop < resume_text.data.length then snip2 ++ dots else snip2
        if EVIDENCE_MAX_LEN < snip3.length then
          ⟨snip3.take (EVIDENCE_MAX_LEN - 3) ++ dots⟩
        else ⟨snip3⟩

/-- Embedding of `baseline.extract_overlapping_skills_with_evidence`: the
sorted case-insensitive intersection of resume and job skills, each with an
evidence snippet or the `(mentioned: skill)` placeholder. -/
def extract_overlapping_skills_with_evidence
    (resume_text : String) (job_skills resume_skills : List String) :
    List SkillWithEvidence :=
  let overlap := sortedDedup
    ((lowerList resume_skills).filter (fun s => decide (s ∈ lowerList job_skills)))
  overlap.map (fun skill =>
    let ev := find_evidence_for_skill resume_text skill
    { skill := skill
      evidence := if ev = "" then "(mentioned: " ++ skill ++ ")" else ev })

/-- Embedding of `baseline.suggest_next_steps_baseline`, appending the lines in
the source's order. -/
def suggest_next_steps_baseline
    (missing_skills overlapping_skill_names : List String) : List String :=
  let steps : List String := []
  let steps := if !missing_skills.isEmpty then
      steps ++ ["Focus on building or highlighting these skills: " ++
        String.intercalate ", " (missing_skills.take 5) ++ "."] ++
      (if 5 < missing_skills.length then
        ["Plus " ++ toString (missing_skills.length - 5) ++
          " more job-relevant skills to consider."]
      else [])
    else
      steps ++ ["Your resume already covers the main skills mentioned in the job."]
  let steps := if !overlapping_skill_names.isEmpty then
      steps ++ ["Emphasize your experience with: " ++
        String.intercalate ", " (overlapping_skill_names.take 5) ++
        " in your summary or top bullet points."]
    else steps
  steps ++ ["Add concrete outcomes (metrics, impact) for your top 3 matching skills.",
    "Tailor your resume header and summary to mirror keywords from the job description."]

/-- Embedding of `baseline.run_baseline_analysis`. -/
def run_baseline_analysis (resume_text job_description : String) : AnalysisResult :=
  let resume_skills := extract_skills_from_text resume_text
  let job_skills := extract_skills_from_text job_description
  let overlapping :=
    extract_overlapping_skills_with_evidence resume_text job_skills resume_skills
  let missing := sortedDedup
    ((lowerList job_skills).filter (fun s => decide (s ∉ lowerList resume_skills)))
  let score := compute_match_score resume_skills job_skills
  let overlap_names := overlapping.map (fun s => s.skill)
  let steps := suggest_next_steps_baseline missing overlap_names
  { match_score := score
    overlapping_skills := overlapping
    missing_skills := missing
    suggested_next_steps := steps
    mode := "baseline" }

/-- The bullet markers stripped by `llm_service.run_llm_analysis` (the third
entry is the source file's literal byte sequence for a bullet character). -/
def BULLET_MARKS : List String :=
  ["- ", "* ", "â€¢ ", "1. ", "2. ", "3. ", "4. ", "5. "]

/-- Line parsing of the completion response in `llm_service.run_llm_analysis`:
strip the content, split on newlines, strip each line, drop empties, strip the
first matching bullet marker, re-strip, and drop lines made empty by that. -/
def parse_llm_steps (content : String) : List String :=
  let pieces := (stripWsL content.data).splitOn '\n'
  pieces.filterMap (fun raw =>
    let line := stripWsL raw
    if line.isEmpty then none
    else
      let line2 := match BULLET_MARKS.find? (fun p => isPrefSeg p.data line) with
        | some p => stripWsL (line.drop p.data.length)
        | none => line
      if line2.isEmpty then none else some (String.mk line2))

/-- Embedding of `llm_service.run_llm_analysis`.  The external completion call
is modelled by an oracle giving the outcome of the n-th call this request
would make: `none` for any failure of the call (exception, timeout, malformed
response — everything the `except` catches), `some content` for a response
text.  The source makes a single call, so only `respond 0` is consulted; the
function is total, so no failure can propagate. -/
def run_llm_analysis (respond : Nat → Option String)
    (resume_text job_description : String) : AnalysisResult :=
  let baseline := run_baseline_analysis resume_text job_description
  match respond 0 with
  | none => baseline
  | some content =>
    let steps := parse_llm_steps content
    if steps.isEmpty then baseline
    else { baseline with suggested_next_steps := steps.take 6, mode := "llm" }

/-- Resume text of the spec's worked example (§8). -/
def exampleResume : String :=
  "Backend engineer. Python, PostgreSQL, Docker, REST APIs. Used FastAPI and git."

/-- Job description of the spec's worked example (§8). -/
def exampleJob : String :=
  "We need Python, PostgreSQL, Docker, and Kubernetes. REST experience required."

/-! ### Helper lemmas: list length bounds -/

theorem length_dropWhile_le_len (p : Char → Bool) (l : List Char) :
    (l.dropWhile p).length ≤ l.length := by
  induction l with
  | nil => simp
  | cons c t ih =>
    by_cases h : p c
    · simp only [List.dropWhile, h, List.length_cons]
      exact le_trans ih (Nat.le_succ _)
    · simp [List.dropWhile, h]

theorem length_takeWhile_le_len (p : Char → Bool) (l : List Char) :
    (l.takeWhile p).length ≤ l.length := by
  induction l with
  | nil => simp
  | cons c t ih =>
    by_cases h : p c
    · simp only [List.takeWhile, h, List.length_cons]
      simpa using ih
    · simp [List.takeWhile, h]

theorem dropTrailingWs_length_le (l : List Char) :
    (dropTrailingWs l).length ≤ l.length := by
  unfold dropTrailingWs
  calc (l.reverse.dropWhile isPyWs).reverse.length
      = (l.reverse.dropWhile isPyWs).length := List.length_reverse _
    _ ≤ l.reverse.length := length_dropWhile_le_len _ _
    _ = l.length := List.length_reverse _

theorem stripWsL_length_le (l : List Char) : (stripWsL l).length ≤ l.length := by
  unfold stripWsL
  calc (dropTrailingWs (l.dropWhile isPyWs)).length
      ≤ (l.dropWhile isPyWs).length := dropTrailingWs_length_le _
    _ ≤ l.length := length_dropWhile_le_len _ _

theorem rsplitFirst_length_le (s : List Char) : (rsplitFirst s).length ≤ s.length := by
  unfold rsplitFirst
  have ht : (dropTrailingWs s).length ≤ s.length := dropTrailingWs_length_le s
  by_cases h :
      (((dropTrailingWs s).reverse.dropWhile (fun c => !isPyWs c)).dropWhile isPyWs).isEmpty
  · simp only [h, if_true]
    calc ((dropTrailingWs s).reverse.takeWhile (fun c => !isPyWs c)).reverse.length
        = ((dropTrailingWs s).reverse.takeWhile (fun c => !isPyWs c)).length :=
          List.length_reverse _
      _ ≤ (dropTrailingWs s).reverse.length := length_takeWhile_le_len _ _
      _ = (dropTrailingWs s).length := List.length_reverse _
      _ ≤ s.length := ht
  · simp only [h, if_false]
    calc (((dropTrailingWs s).reverse.dropWhile (fun c => !isPyWs c)).dropWhile
          isPyWs).reverse.length
        = (((dropTrailingWs s).reverse.dropWhile (fun c => !isPyWs c)).dropWhile
          isPyWs).length := List.length_reverse _
      _ ≤ ((dropTrailingWs s).reverse.dropWhile (fun c => !isPyWs c)).length :=
          length_dropWhile_le_len _ _
      _ ≤ (dropTrailingWs s).reverse.length := length_dropWhile_le_len _ _
      _ = (dropTrailingWs s).length := List.length_reverse _
      _ ≤ s.length := ht

/-! ### Helper lemmas: sortedDedup models Python sorted(set(...)) -/

theorem lexLt_iff (l₁ l₂ : List Char) : lexLt l₁ l₂ = true ↔ l₁ < l₂ := by
  induction l₁ generalizing l₂ with
  | nil =>
    cases l₂ with
    | nil => simp [lexLt]
    | cons b bs =>
      simp only [lexLt, true_iff]
      exact List.nil_lt_cons b bs
  | cons a as ih =>
    cases l₂ with
    | nil => simp [lexLt]
    | cons b bs =>
      unfold lexLt
      by_cases h1 : a < b
      · rw [if_pos h1]
        constructor
        · intro _
          exact List.Lex.rel h1
        · intro _
          rfl
      · rw [if_neg h1]
        by_cases h2 : b < a
        · rw [if_pos h2]
          constructor
          · intro h
            exact absurd h (by simp)
          · intro h
            cases h with
            | rel h' => exact absurd h' h1
            | cons h' => exact absurd h2 (lt_irrefl a)
        · rw [if_neg h2]
          have hab : a = b := le_antisymm (not_lt.mp h2) (not_lt.mp h1)
          subst hab
          rw [ih bs]
          constructor
          · intro h
            exact List.Lex.cons h
          · intro h
            cases h with
            | rel h' => exact absurd h' h1
            | cons h' => exact h'

theorem strLtB_iff (a b : String) : strLtB a b = true ↔ a < b := by
  rw [String.lt_iff_toList_lt]
  exact lexLt_iff a.data b.data

theorem mem_insortDedup {y : String} (x : String) (l : List String) :
    y ∈ insortDedup x l ↔ y = x ∨ y ∈ l := by
  induction l with
  | nil => simp [insortDedup]
  | cons a as ih =>
    unfold insortDedup
    by_cases h1 : strLtB x a = true
    · rw [if_pos h1]
      simp only [List.mem_cons]
    · by_cases h2 : x = a
      · subst h2
        rw [if_neg h1, if_pos rfl]
        simp only [List.mem_cons]
        tauto
      · rw [if_neg h1, if_neg h2]
        simp only [List.mem_cons, ih]
        tauto

theorem sorted_insortDedup (x : String) (l : List String)
    (h : l.Sorted (· < ·)) : (insortDedup x l).Sorted (· < ·) := by
  induction l with
  | nil => simp [insortDedup]
  | cons a as ih =>
    rw [List.sorted_cons] at h
    obtain ⟨ha, has⟩ := h
    unfold insortDedup
    by_cases h1 : strLtB x a = true
    · have hxa : x < a := (strLtB_iff x a).mp h1
      rw [if_pos h1, List.sorted_cons]
      constructor
      · intro b hb
        rcases List.mem_cons.mp hb with hb | hb
        · exact hb ▸ hxa
        · exact lt_trans hxa (ha b hb)
      · rw [List.sorted_cons]
        exact ⟨ha, has⟩
    · by_cases h2 : x = a
      · subst h2
        rw [if_neg h1, if_pos rfl, List.sorted_cons]
        exact ⟨ha, has⟩
      · have hax : a < x := by
          rcases lt_trichotomy x a with h | h | h
          · exact absurd ((strLtB_iff x a).mpr h) h1
          · exact absurd h h2
          · exact h
        rw [if_neg h1, if_neg h2, List.sorted_cons]
        constructor
        · intro b hb
          rcases (mem_insortDedup x as).mp hb with hb | hb
          · exact hb ▸ hax
          · exact ha b hb
        · exact ih has

theorem sortedDedup_sorted (l : List String) : (sortedDedup l).Sorted (· < ·) := by
  induction l with
  | nil => simp [sortedDedup]
  | cons a as ih => exact sorted_insortDedup a _ ih

theorem mem_sortedDedup {y : String} (l : List String) :
    y ∈ sortedDedup l ↔ y ∈ l := by
  induction l with
  | nil => simp [sortedDedup]
  | cons a as ih =>
    show y ∈ insortDedup a (sortedDedup as) ↔ _
    rw [mem_insortDedup, ih, List.mem_cons]

theorem sortedDedup_nodup (l : List String) : (sortedDedup l).Nodup :=
  (sortedDedup_sorted l).nodup

theorem sortedDedup_length_eq_card (l : List String) :
    (sortedDedup l).length = l.toFinset.card := by
  have h1 : (sortedDedup l).toFinset.card = (sortedDedup l).length :=
    List.toFinset_card_of_nodup (sortedDedup_nodup l)
  rw [← h1]
  congr 1
  ext s
  simp [List.mem_toFinset, mem_sortedDedup]

theorem filter_mem_length_eq_card (A B : List String) :
    ((sortedDedup A).filter (fun s => decide (s ∈ sortedDedup B))).length =
      (A.toFinset ∩ B.toFinset).card := by
  have hnd : ((sortedDedup A).filter (fun s => decide (s ∈ sortedDedup B))).Nodup :=
    (sortedDedup_nodup A).filter _
  rw [← List.toFinset_card_of_nodup hnd]
  congr 1
  ext s
  simp only [List.mem_toFinset, List.mem_filter, Finset.mem_inter,
    decide_eq_true_iff, mem_sortedDedup]

/-! ### Helper lemmas: score -/

theorem pyRound_zero {den : Nat} (h : 0 < den) : pyRound 0 den = 0 := by
  unfold pyRound
  simp only [Nat.zero_div, Nat.zero_mod, Nat.mul_zero]
  rw [if_pos]
  omega

theorem sortedDedup_ne_nil {l : List String} (h : l ≠ []) : sortedDedup l ≠ [] := by
  intro hc
  cases l with
  | nil => exact h rfl
  | cons a as =>
    have : a ∈ sortedDedup (a :: as) := (mem_sortedDedup _).mpr (List.mem_cons_self a as)
    rw [hc] at this
    exact List.not_mem_nil a this

theorem compute_match_score_formula (r j : List String) (h : j ≠ []) :
    compute_match_score r j =
      min 100 (pyRound
        (100 * ((lowerList j).toFinset ∩ (lowerList r).toFinset).card)
        (lowerList j).toFinset.card) := by
  have hje : j.isEmpty = false := by
    cases j with
    | nil => exact absurd rfl h
    | cons a as => rfl
  unfold compute_match_score
  rw [hje]
  simp only [Bool.false_eq_true, if_false]
  rw [filter_mem_length_eq_card (lowerList j) (lowerList r),
    sortedDedup_length_eq_card (lowerList j)]

/-! ### Helper lemmas: characters -/

theorem isUpperAscii_ofNat_in_lower {n : Nat} (h1 : 97 ≤ n) (h2 : n ≤ 122) :
    isUpperAscii (Char.ofNat n) = false := by
  interval_cases n <;> decide

theorem isUpperAscii_toLower (c : Char) : isUpperAscii (Char.toLower c) = false := by
  show isUpperAscii
    (if c.toNat ≥ 65 ∧ c.toNat ≤ 90 then Char.ofNat (c.toNat + 32) else c) = false
  by_cases h : c.toNat ≥ 65 ∧ c.toNat ≤ 90
  · rw [if_pos h]
    exact isUpperAscii_ofNat_in_lower (by omega) (by omega)
  · rw [if_neg h]
    exact decide_eq_false (fun hc => h ⟨hc.1, hc.2⟩)

theorem normChar_ws_or_word (c : Char) :
    isPyWs (normChar c) = true ∨ isWordChar (normChar c) = true := by
  unfold normChar
  by_cases h : isWordChar c || isPyWs c
  · rw [if_pos h]
    rcases Bool.or_eq_true_iff.mp h with h | h
    · exact Or.inr h
    · exact Or.inl h
  · rw [if_neg h]
    left
    decide

theorem splitWsAux_word_chars (l acc : List Char)
    (hacc : ∀ c ∈ acc, isWordChar c = true)
    (hl : ∀ c ∈ l, isPyWs c = true ∨ isWordChar c = true) :
    ∀ w ∈ splitWsAux acc l, ∀ c ∈ w, isWordChar c = true := by
  induction l generalizing acc with
  | nil =>
    intro w hw c hc
    unfold splitWsAux at hw
    by_cases he : acc.isEmpty
    · rw [if_pos he] at hw
      exact absurd hw (List.not_mem_nil w)
    · rw [if_neg he] at hw
      rcases List.mem_singleton.mp hw with rfl
      exact hacc c (List.mem_reverse.mp hc)
  | cons a t ih =>
    intro w hw c hc
    unfold splitWsAux at hw
    by_cases ha : isPyWs a
    · rw [if_pos ha] at hw
      by_cases he : acc.isEmpty
      · rw [if_pos he] at hw
        exact ih [] (by intro c hc; exact absurd hc (List.not_mem_nil c))
          (fun c hc => hl c (List.mem_cons_of_mem a hc)) w hw c hc
      · rw [if_neg he] at hw
        rcases List.mem_cons.mp hw with rfl | hw
        · exact hacc c (List.mem_reverse.mp hc)
        · exact ih [] (by intro c hc; exact absurd hc (List.not_mem_nil c))
            (fun c hc => hl c (List.mem_cons_of_mem a hc)) w hw c hc
    · rw [if_neg ha] at hw
      have haw : isWordChar a = true := by
        rcases hl a (List.mem_cons_self a t) with h | h
        · exact absurd h ha
        · exact h
      refine ih (a :: acc) ?_ (fun c hc => hl c (List.mem_cons_of_mem a hc)) w hw c hc
      intro c hc
      rcases List.mem_cons.mp hc with rfl | hc
      · exact haw
      · exact hacc c hc

theorem pySplit_word_chars (l : List Char)
    (hl : ∀ c ∈ l, isPyWs c = true ∨ isWordChar c = true) :
    ∀ w ∈ pySplit l, ∀ c ∈ w, isWordChar c = true :=
  splitWsAux_word_chars l []
    (by intro c hc; exact absurd hc (List.not_mem_nil c)) hl

theorem joinSp_chars (L : List (List Char))
    (hL : ∀ w ∈ L, ∀ c ∈ w, isWordChar c = true) :
    ∀ c ∈ joinSp L, isWordChar c = true ∨ c = ' ' := by
  induction L with
  | nil =>
    intro c hc
    exact absurd hc (List.not_mem_nil c)
  | cons w rest ih =>
    cases rest with
    | nil =>
      intro c hc
      exact Or.inl (hL w (List.mem_singleton.mpr rfl) c hc)
    | cons x rest' =>
      intro c hc
      show isWordChar c = true ∨ c = ' '
      have hc' : c ∈ w ++ ' ' :: joinSp (x :: rest') := hc
      rcases List.mem_append.mp hc' with hc' | hc'
      · exact Or.inl (hL w (List.mem_cons_self w _) c hc')
      · rcases List.mem_cons.mp hc' with rfl | hc'
        · exact Or.inr rfl
        · exact ih (fun v hv => hL v (List.mem_cons_of_mem w hv)) c hc'

theorem normalize_text_chars (t : String) :
    ∀ c ∈ (normalize_text t).data, isWordChar c = true ∨ c = ' ' := by
  unfold normalize_text
  by_cases h : stripWsL t.data = []
  · rw [if_pos h]
    intro c hc
    exact absurd hc (List.not_mem_nil c)
  · rw [if_neg h]
    intro c hc
    refine joinSp_chars _ ?_ c hc
    refine pySplit_word_chars _ ?_
    intro d hd
    rcases List.mem_map.mp hd with ⟨e, _, rfl⟩
    exact normChar_ws_or_word e

theorem bigramsOf_chars (L : List String)
    (hL : ∀ w ∈ L, ∀ c ∈ w.data, isWordChar c = true) :
    ∀ w ∈ bigramsOf L, ∀ c ∈ w.data, isWordChar c = true ∨ c = ' ' := by
  induction L with
  | nil =>
    intro w hw
    exact absurd hw (List.not_mem_nil w)
  | cons a rest ih =>
    cases rest with
    | nil =>
      intro w hw
      exact absurd hw (List.not_mem_nil w)
    | cons b rest' =>
      intro w hw c hc
      rcases List.mem_cons.mp hw with rfl | hw
      · have : (a ++ " " ++ b).data = a.data ++ " ".data ++ b.data := by
          simp [String.data_append]
        rw [this] at hc
        rcases List.mem_append.mp hc with hc | hc
        · rcases List.mem_append.mp hc with hc | hc
          · exact Or.inl (hL a (List.mem_cons_self a _) c hc)
          · rcases List.mem_singleton.mp hc with rfl
            exact Or.inr rfl
        · exact Or.inl (hL b (List.mem_cons_of_mem a (List.mem_cons_self b _)) c hc)
      · exact ih (fun v hv => hL v (List.mem_cons_of_mem a hv)) w hw c hc

theorem tokenize_chars (t : String) :
    ∀ w ∈ tokenize t, ∀ c ∈ w.data, isWordChar c = true ∨ c = ' ' := by
  intro w hw
  unfold tokenize at hw
  have hwords : ∀ v ∈ (pySplit (normalize_text t).data).map (fun w => String.mk w),
      ∀ c ∈ v.data, isWordChar c = true := by
    intro v hv c hc
    rcases List.mem_map.mp hv with ⟨piece, hp, rfl⟩
    refine pySplit_word_chars _ ?_ piece hp c hc
    intro d hd
    rcases normalize_text_chars t d hd with h | h
    · exact Or.inr h
    · subst h
      left
      decide
  rcases List.mem_append.mp hw with hw | hw
  · intro c hc
    exact Or.inl (hwords w hw c hc)
  · exact bigramsOf_chars _ hwords w hw

theorem spaced_keywords_clean :
    ∀ kw ∈ SKILL_KEYWORDS, hasSpace kw = true →
      ∀ c ∈ kw.data, isWordChar c = true ∨ c = ' ' := by
  decide

/-! ### Projections of run_baseline_analysis -/

theorem baseline_missing_eq (resume jd : String) :
    (run_baseline_analysis resume jd).missing_skills =
      sortedDedup ((lowerList (extract_skills_from_text jd)).filter
        (fun s => decide (s ∉ lowerList (extract_skills_from_text resume)))) := rfl

theorem baseline_overlapping_eq (resume jd : String) :
    (run_baseline_analysis resume jd).overlapping_skills =
      extract_overlapping_skills_with_evidence resume
        (extract_skills_from_text jd) (extract_skills_from_text resume) := rfl

theorem baseline_score_eq (resume jd : String) :
    (run_baseline_analysis resume jd).match_score =
      compute_match_score (extract_skills_from_text resume)
        (extract_skills_from_text jd) := rfl

theorem baseline_mode_eq (resume jd : String) :
    (run_baseline_analysis resume jd).mode = "baseline" := rfl

theorem overlapping_names_eq (resume jd : String) :
    (run_baseline_analysis resume jd).overlapping_skills.map (fun e => e.skill) =
      sortedDedup ((lowerList (extract_skills_from_text resume)).filter
        (fun s => decide (s ∈ lowerList (extract_skills_from_text jd)))) := by
  rw [baseline_overlapping_eq]
  unfold extract_overlapping_skills_with_evidence
  rw [List.map_map]
  exact List.map_id _

theorem mem_overlapping_skill {resume : String} {js rs : List String}
    {e : SkillWithEvidence}
    (he : e ∈ extract_overlapping_skills_with_evidence resume js rs) :
    e.skill ∈ lowerList rs ∧ e.skill ∈ lowerList js := by
  unfold extract_overlapping_skills_with_evidence at he
  rcases List.mem_map.mp he with ⟨sk, hsk, rfl⟩
  have h1 := (mem_sortedDedup _).mp hsk
  have h2 := List.mem_filter.mp h1
  exact ⟨h2.1, of_decide_eq_true h2.2⟩

theorem lowerList_entry_chars {s : String} {l : List String}
    (h : s ∈ lowerList l) : ∀ c ∈ s.data, isUpperAscii c = false := by
  rcases List.mem_map.mp h with ⟨x, _, rfl⟩
  intro c hc
  rcases List.mem_map.mp hc with ⟨d, _, rfl⟩
  exact isUpperAscii_toLower d

/-! ### Claim theorems -/

/-- C1: `compute_match_score` always lands in [0,100] (the codomain is `Nat`,
so 0 ≤ score holds by type); an empty job list scores 100; a non-empty job
list with an empty resume list scores 0; and in general, for a non-empty job
list, the score is `100 * |jobSkills ∩ resumeSkills| / |jobSkills|` over the
case-insensitive (lowered) skill sets, rounded (Python `round`, half to even)
and clamped to at most 100. -/
theorem claim1_score_range_and_formula (r j : List String) :
    compute_match_score r j ≤ 100 ∧
    (j = [] → compute_match_score r j = 100) ∧
    (r = [] → j ≠ [] → compute_match_score r j = 0) ∧
    (j ≠ [] → compute_match_score r j =
      min 100 (pyRound
        (100 * ((lowerList j).toFinset ∩ (lowerList r).toFinset).card)
        (lowerList j).toFinset.card)) := by
  refine ⟨?_, ?_, ?_, fun h => compute_match_score_formula r j h⟩
  · unfold compute_match_score
    by_cases h : j.isEmpty
    · rw [if_pos h]
    · rw [if_neg h]
      exact min_le_left _ _
  · intro h
    subst h
    rfl
  · intro hr hj
    subst hr
    have hje : j.isEmpty = false := by
      cases j with
      | nil => exact absurd rfl hj
      | cons a as => rfl
    unfold compute_match_score
    rw [hje]
    simp only [Bool.false_eq_true, if_false]
    have hfilter : (sortedDedup (lowerList j)).filter
        (fun s => decide (s ∈ sortedDedup (lowerList ([] : List String)))) = [] := by
      apply List.filter_eq_nil_iff.mpr
      intro a _
      simp [sortedDedup, lowerList]
    rw [hfilter]
    have hpos : 0 < (sortedDedup (lowerList j)).length := by
      have : sortedDedup (lowerList j) ≠ [] := by
        apply sortedDedup_ne_nil
        intro hc
        exact hj (List.map_eq_nil_iff.mp hc)
      exact List.length_pos.mpr this
    simp only [List.length_nil, Nat.mul_zero]
    rw [pyRound_zero hpos]
    simp

/-- C1 witness: the three conditional cases of `claim1_score_range_and_formula`
at concrete inputs. -/
theorem claim1_witness :
    compute_match_score ["python"] [] = 100 ∧
    compute_match_score [] ["python"] = 0 ∧
    compute_match_score ["python", "react"] ["python", "react", "sql"] =
      min 100 (pyRound
        (100 * ((lowerList ["python", "react", "sql"]).toFinset ∩
          (lowerList ["python", "react"]).toFinset).card)
        (lowerList ["python", "react", "sql"]).toFinset.card) :=
  ⟨(claim1_score_range_and_formula ["python"] []).2.1 rfl,
   (claim1_score_range_and_formula [] ["python"]).2.2.1 rfl (List.cons_ne_nil _ _),
   (claim1_score_range_and_formula ["python", "react"]
      ["python", "react", "sql"]).2.2.2 (List.cons_ne_nil _ _)⟩

/-- C2: for every pair of input texts, the overlapping skill names and the
missing skills of the baseline result partition the (lowered) job skill set:
their union is exactly that set and they are disjoint, so every job skill lies
in exactly one of the two. -/
theorem claim2_overlap_missing_partition (resume jd : String) (s : String) :
    ((s ∈ (run_baseline_analysis resume jd).overlapping_skills.map (fun e => e.skill) ∨
      s ∈ (run_baseline_analysis resume jd).missing_skills) ↔
      s ∈ lowerList (extract_skills_from_text jd)) ∧
    ¬(s ∈ (run_baseline_analysis resume jd).overlapping_skills.map (fun e => e.skill) ∧
      s ∈ (run_baseline_analysis resume jd).missing_skills) := by
  rw [overlapping_names_eq resume jd, baseline_missing_eq resume jd]
  simp only [mem_sortedDedup, List.mem_filter, decide_eq_true_eq]
  constructor
  · constructor
    · rintro (⟨_, h⟩ | ⟨h, _⟩) <;> exact h
    · intro h
      by_cases hr : s ∈ lowerList (extract_skills_from_text resume)
      · exact Or.inl ⟨hr, h⟩
      · exact Or.inr ⟨h, hr⟩
  · rintro ⟨⟨hr, _⟩, ⟨_, hnr⟩⟩
    exact hnr hr

/-- C2 witness: the partition property applied at the worked example, placing
the missing skill "kubernetes" inside the job's lowered skill set. -/
theorem claim2_witness :
    "kubernetes" ∈ lowerList (extract_skills_from_text exampleJob) :=
  ((claim2_overlap_missing_partition exampleResume exampleJob "kubernetes").1).mp
    (Or.inr (by decide))

/-- C4: the spec's worked example — job skills extracted from the example job
description, the resume/job overlap, match score 80, missing skill list
`["kubernetes"]`, and the small numeric example `round(2/3*100) = 67`. -/
theorem claim4_worked_examples :
    extract_skills_from_text exampleJob =
      ["docker", "kubernetes", "postgresql", "python", "rest"] ∧
    (run_baseline_analysis exampleResume exampleJob).overlapping_skills.map
      (fun e => e.skill) = ["docker", "postgresql", "python", "rest"] ∧
    (run_baseline_analysis exampleResume exampleJob).match_score = 80 ∧
    (run_baseline_analysis exampleResume exampleJob).missing_skills =
      ["kubernetes"] ∧
    compute_match_score ["python", "react"] ["python", "react", "sql"] = 67 := by
  refine ⟨?_, ?_, ?_, ?_, ?_⟩ <;> decide

theorem compute_match_score_set_congr (r r' j j' : List String)
    (hr : (lowerList r).toFinset = (lowerList r').toFinset)
    (hj : (lowerList j).toFinset = (lowerList j').toFinset) :
    compute_match_score r j = compute_match_score r' j' := by
  by_cases hje : j = []
  · subst hje
    have h0 : (lowerList j').toFinset = ∅ := by
      rw [← hj]
      rfl
    have hj'e : j' = [] :=
      List.map_eq_nil_iff.mp ((List.toFinset_eq_empty_iff (lowerList j')).mp h0)
    subst hj'e
    rfl
  · have hj'e : j' ≠ [] := by
      intro hc
      subst hc
      have h0 : (lowerList j).toFinset = ∅ := by
        rw [hj]
        rfl
      exact hje (List.map_eq_nil_iff.mp
        ((List.toFinset_eq_empty_iff (lowerList j)).mp h0))
    rw [compute_match_score_formula r j hje, compute_match_score_formula r' j' hj'e,
      hr, hj]

/-- C7: `compute_match_score` is invariant under permutation of either input
list, under changing the case of entries (any replacement with the same
lowered entries), and under duplicating an entry within either list alone, at
any position, with the other list unchanged. -/
theorem claim7_score_invariance (r r' j j' : List String) :
    (r.Perm r' → j.Perm j' → compute_match_score r j = compute_match_score r' j') ∧
    (lowerList r = lowerList r' → lowerList j = lowerList j' →
      compute_match_score r j = compute_match_score r' j') ∧
    (∀ (x : String) (l1 l2 : List String),
      compute_match_score (l1 ++ x :: x :: l2) j =
        compute_match_score (l1 ++ x :: l2) j) ∧
    (∀ (y : String) (l1 l2 : List String),
      compute_match_score r (l1 ++ y :: y :: l2) =
        compute_match_score r (l1 ++ y :: l2)) := by
  refine ⟨?_, ?_, ?_, ?_⟩
  · intro hrp hjp
    exact compute_match_score_set_congr r r' j j'
      (List.toFinset_eq_of_perm _ _ (hrp.map pyLower))
      (List.toFinset_eq_of_perm _ _ (hjp.map pyLower))
  · intro hre hje
    exact compute_match_score_set_congr r r' j j' (by rw [hre]) (by rw [hje])
  · intro x l1 l2
    apply compute_match_score_set_congr
    · simp [lowerList, List.toFinset_append, List.toFinset_cons]
    · rfl
  · intro y l1 l2
    apply compute_match_score_set_congr
    · rfl
    · simp [lowerList, List.toFinset_append, List.toFinset_cons]

/-- C7 witness: permutation invariance, case invariance, and each one-sided
duplication at concrete inputs. -/
theorem claim7_witness :
    compute_match_score ["sql", "python"] ["docker"] =
      compute_match_score ["python", "sql"] ["docker"] ∧
    compute_match_score ["PYTHON"] ["Python"] =
      compute_match_score ["python"] ["python"] ∧
    compute_match_score ["a", "a", "sql"] ["git"] =
      compute_match_score ["a", "sql"] ["git"] ∧
    compute_match_score ["python"] ["b", "b", "git"] =
      compute_match_score ["python"] ["b", "git"] :=
  ⟨(claim7_score_invariance ["sql", "python"] ["python", "sql"]
      ["docker"] ["docker"]).1 (List.Perm.swap "python" "sql" [])
      (List.Perm.refl _),
   (claim7_score_invariance ["PYTHON"] ["python"] ["Python"] ["python"]).2.1
      (by decide) (by decide),
   (claim7_score_invariance [] [] ["git"] ["git"]).2.2.1 "a" [] ["sql"],
   (claim7_score_invariance ["python"] ["python"] [] []).2.2.2 "b" [] ["git"]⟩

/-- C8: the suggestion generator's output is, in order: the missing-skills
focus line (with a count-only follow-up when more than 5 skills are missing)
or the congratulatory line; then the overlap-emphasis line when overlap is
non-empty; then always the two fixed closing-advice lines. -/
theorem claim8_suggestion_layout (missing overlapping : List String) :
    suggest_next_steps_baseline missing overlapping =
      (if missing = [] then
        ["Your resume already covers the main skills mentioned in the job."]
      else
        ["Focus on building or highlighting these skills: " ++
          String.intercalate ", " (missing.take 5) ++ "."] ++
        (if 5 < missing.length then
          ["Plus " ++ toString (missing.length - 5) ++
            " more job-relevant skills to consider."]
        else [])) ++
      (if overlapping = [] then []
       else
        ["Emphasize your experience with: " ++
          String.intercalate ", " (overlapping.take 5) ++
          " in your summary or top bullet points."]) ++
      ["Add concrete outcomes (metrics, impact) for your top 3 matching skills.",
       "Tailor your resume header and summary to mirror keywords from the job description."] := by
  unfold suggest_next_steps_baseline
  cases missing with
  | nil =>
    cases overlapping with
    | nil => simp
    | cons o os => simp
  | cons m ms =>
    cases overlapping with
    | nil => simp
    | cons o os => simp

/-- C9: every skill string that `extract_skills_from_text` can return consists
only of word characters and spaces; dictionary entries containing other
punctuation (such as "c++", "c#", "ci/cd", ".net", "next.js", "asp.net",
"scikit-learn") are unreachable outputs, since normalization replaces that
punctuation with spaces. -/
theorem claim9_extracted_chars (text : String) :
    ∀ s ∈ extract_skills_from_text text, ∀ c ∈ s.data,
      isWordChar c = true ∨ c = ' ' := by
  intro s hs
  unfold extract_skills_from_text at hs
  by_cases h : stripWsL text.data = []
  · rw [if_pos h] at hs
    exact absurd hs (List.not_mem_nil s)
  · rw [if_neg h] at hs
    have hs' := (mem_sortedDedup _).mp hs
    rcases List.mem_append.mp hs' with hs' | hs'
    · obtain ⟨hmem, hpred⟩ := List.mem_filter.mp hs'
      have hsp : hasSpace s = true := (Bool.and_eq_true_iff.mp hpred).1
      exact spaced_keywords_clean s hmem hsp
    · exact tokenize_chars text s (List.mem_filter.mp hs').1

/-- C9 witness: the character guarantee applied to a concrete extraction. -/
theorem claim9_witness : isWordChar 'p' = true ∨ 'p' = ' ' :=
  claim9_extracted_chars "We use Python." "python" (by decide) 'p' (by decide)

/-- C10: in every baseline result, `missing_skills` is strictly sorted with no
duplicates and all-lowercase entries, and the skill names of
`overlapping_skills` are strictly sorted, duplicate-free and lowercase. -/
theorem claim10_sorted_lowercase (resume jd : String) :
    (run_baseline_analysis resume jd).missing_skills.Sorted (· < ·) ∧
    (run_baseline_analysis resume jd).missing_skills.Nodup ∧
    (∀ s ∈ (run_baseline_analysis resume jd).missing_skills,
      ∀ c ∈ s.data, isUpperAscii c = false) ∧
    ((run_baseline_analysis resume jd).overlapping_skills.map
      (fun e => e.skill)).Sorted (· < ·) ∧
    ((run_baseline_analysis resume jd).overlapping_skills.map
      (fun e => e.skill)).Nodup ∧
    (∀ e ∈ (run_baseline_analysis resume jd).overlapping_skills,
      ∀ c ∈ e.skill.data, isUpperAscii c = false) := by
  refine ⟨?_, ?_, ?_, ?_, ?_, ?_⟩
  · rw [baseline_missing_eq]
    exact sortedDedup_sorted _
  · rw [baseline_missing_eq]
    exact sortedDedup_nodup _
  · rw [baseline_missing_eq]
    intro s hs
    have h1 := (mem_sortedDedup _).mp hs
    exact lowerList_entry_chars (List.mem_filter.mp h1).1
  · rw [overlapping_names_eq]
    exact sortedDedup_sorted _
  · rw [overlapping_names_eq]
    exact sortedDedup_nodup _
  · rw [baseline_overlapping_eq]
    intro e he
    exact lowerList_entry_chars (mem_overlapping_skill he).1

/-- C10 witness: lowercase-ness of a character of a concrete missing skill. -/
theorem claim10_witness : isUpperAscii 'k' = false :=
  (claim10_sorted_lowercase exampleResume exampleJob).2.2.1 "kubernetes"
    (by decide) 'k' (by decide)

theorem take_dots_len_le (l : List Char) :
    (l.take (EVIDENCE_MAX_LEN - 3) ++ dots).length ≤ EVIDENCE_MAX_LEN := by
  rw [List.length_append, List.length_take]
  have h1 : min (EVIDENCE_MAX_LEN - 3) l.length ≤ EVIDENCE_MAX_LEN - 3 :=
    min_le_left _ _
  have hd : dots.length = 3 := rfl
  have he : EVIDENCE_MAX_LEN = 120 := rfl
  omega

theorem truncated_len_le (l : List Char) :
    (rsplitFirst (l.take (EVIDENCE_MAX_LEN - 3)) ++ dots).length ≤
      EVIDENCE_MAX_LEN := by
  rw [List.length_append]
  have h1 := rsplitFirst_length_le (l.take (EVIDENCE_MAX_LEN - 3))
  have h2 : (l.take (EVIDENCE_MAX_LEN - 3)).length ≤ EVIDENCE_MAX_LEN - 3 := by
    rw [List.length_take]
    exact min_le_left _ _
  have hd : dots.length = 3 := rfl
  have he : EVIDENCE_MAX_LEN = 120 := rfl
  omega

theorem sent_if_le (l : List Char) :
    (if EVIDENCE_MAX_LEN < l.length then
      (⟨rsplitFirst (l.take (EVIDENCE_MAX_LEN - 3)) ++ dots⟩ : String)
    else ⟨l⟩).length ≤ EVIDENCE_MAX_LEN := by
  split
  · exact truncated_len_le l
  · next h => exact not_lt.mp h

theorem cap_if_le (l : List Char) :
    (if EVIDENCE_MAX_LEN < l.length then
      (⟨l.take (EVIDENCE_MAX_LEN - 3) ++ dots⟩ : String)
    else ⟨l⟩).length ≤ EVIDENCE_MAX_LEN := by
  split
  · exact take_dots_len_le l
  · next h => exact not_lt.mp h

theorem evidence_length_le (resume skill : String) :
    (find_evidence_for_skill resume skill).length ≤ EVIDENCE_MAX_LEN := by
  unfold find_evidence_for_skill
  dsimp only
  split
  · decide
  · split
    · exact sent_if_le _
    · split
      · decide
      · exact cap_if_le _

theorem placeholder_ne_empty (sk : String) : "(mentioned: " ++ sk ++ ")" ≠ "" := by
  intro h
  have hl := congrArg String.length h
  rw [String.length_append, String.length_append] at hl
  have h12 : ("(mentioned: " : String).length = 12 := rfl
  have h1 : (")" : String).length = 1 := rfl
  have h0 : ("" : String).length = 0 := rfl
  omega

/-- C5: every evidence snippet produced by the evidence locator has length at
most the fixed cap `EVIDENCE_MAX_LEN = 120`, and every `SkillWithEvidence`
produced for the overlap list carries a non-empty evidence string (a located
snippet, or the `(mentioned: skill)` placeholder when no occurrence is found). -/
theorem claim5_evidence_bounds (resume_text skill : String)
    (job_skills resume_skills : List String) :
    (find_evidence_for_skill resume_text skill).length ≤ EVIDENCE_MAX_LEN ∧
    ∀ e ∈ extract_overlapping_skills_with_evidence resume_text job_skills
      resume_skills, e.evidence ≠ "" := by
  refine ⟨evidence_length_le resume_text skill, ?_⟩
  intro e he
  unfold extract_overlapping_skills_with_evidence at he
  rcases List.mem_map.mp he with ⟨sk, hsk, rfl⟩
  dsimp only
  split
  · exact placeholder_ne_empty sk
  · next h => exact h

/-- C5 witness: the length bound and the non-empty evidence of the concrete
overlap entry of the worked example. -/
theorem claim5_witness :
    (find_evidence_for_skill exampleResume "python").length ≤ EVIDENCE_MAX_LEN ∧
    (⟨"python", "Python, PostgreSQL, Docker, REST APIs."⟩ :
      SkillWithEvidence).evidence ≠ "" :=
  ⟨(claim5_evidence_bounds exampleResume "python" [] []).1,
   (claim5_evidence_bounds exampleResume "python" ["python"] ["python"]).2
     ⟨"python", "Python, PostgreSQL, Docker, REST APIs."⟩ (by decide)⟩

/-- C3: whenever the external completion call fails — the oracle reports
`none` (exception, timeout, malformed response) or yields content that parses
to zero usable lines — `run_llm_analysis` returns exactly the baseline result
with mode "baseline"; the function is total, so no LLM-path error reaches the
caller, and the result depends only on the first (single) call outcome. -/
theorem claim3_llm_fallback (resume jd : String) (o o' : Nat → Option String)
    (hfail : o 0 = none ∨ ∃ c, o 0 = some c ∧ parse_llm_steps c = [])
    (hsame : o' 0 = o 0) :
    run_llm_analysis o resume jd = run_baseline_analysis resume jd ∧
    (run_llm_analysis o resume jd).mode = "baseline" ∧
    run_llm_analysis o' resume jd = run_llm_analysis o resume jd := by
  have hmain : run_llm_analysis o resume jd = run_baseline_analysis resume jd := by
    unfold run_llm_analysis
    rcases hfail with h | ⟨c, hc, hp⟩
    · rw [h]
    · rw [hc]
      dsimp only
      simp [hp]
  have honce : run_llm_analysis o' resume jd = run_llm_analysis o resume jd := by
    unfold run_llm_analysis
    rw [hsame]
  refine ⟨hmain, ?_, honce⟩
  rw [hmain]
  rfl

/-- C3 witness: a failing external call yields the baseline result. -/
theorem claim3_witness :
    run_llm_analysis (fun _ => none) "Python dev" "Needs Python" =
      run_baseline_analysis "Python dev" "Needs Python" :=
  (claim3_llm_fallback "Python dev" "Needs Python" (fun _ => none)
    (fun _ => none) (Or.inl rfl) rfl).1

/-- C6: when the external call succeeds with at least one usable line after
bullet-stripping, the LLM result keeps the baseline's match_score,
overlapping_skills and missing_skills unchanged, replaces
suggested_next_steps by at most 6 parsed lines, and sets mode to "llm". -/
theorem claim6_llm_success_frame (resume jd : String) (o : Nat → Option String)
    (c : String) (hc : o 0 = some c) (hne : parse_llm_steps c ≠ []) :
    (run_llm_analysis o resume jd).match_score =
      (run_baseline_analysis resume jd).match_score ∧
    (run_llm_analysis o resume jd).overlapping_skills =
      (run_baseline_analysis resume jd).overlapping_skills ∧
    (run_llm_analysis o resume jd).missing_skills =
      (run_baseline_analysis resume jd).missing_skills ∧
    (run_llm_analysis o resume jd).suggested_next_steps =
      (parse_llm_steps c).take 6 ∧
    (run_llm_analysis o resume jd).mode = "llm" := by
  have hres : run_llm_analysis o resume jd =
      { run_baseline_analysis resume jd with
        suggested_next_steps := (parse_llm_steps c).take 6, mode := "llm" } := by
    unfold run_llm_analysis
    rw [hc]
    dsimp only
    have hcond : (parse_llm_steps c).isEmpty ≠ true := by
      intro h
      exact hne (List.isEmpty_iff.mp h)
    rw [if_neg hcond]
  rw [hres]
  exact ⟨rfl, rfl, rfl, rfl, rfl⟩

/-- C6 witness: a successful call with one usable line at concrete inputs. -/
theorem claim6_witness :
    (run_llm_analysis (fun _ => some "- Learn Kubernetes basics")
      "Python dev" "Needs Python").suggested_next_steps =
      (parse_llm_steps "- Learn Kubernetes basics").take 6 ∧
    (run_llm_analysis (fun _ => some "- Learn Kubernetes basics")
      "Python dev" "Needs Python").mode = "llm" :=
  ⟨(claim6_llm_success_frame "Python dev" "Needs Python"
      (fun _ => some "- Learn Kubernetes basics") "- Learn Kubernetes basics"
      rfl (by decide)).2.2.2.1,
   (claim6_llm_success_frame "Python dev" "Needs Python"
      (fun _ => some "- Learn Kubernetes basics") "- Learn Kubernetes basics"
      rfl (by decide)).2.2.2.2⟩
